import Mathlib

/-!
Shallow embedding of the checkers ("dames") rule engine of this repository:
`src/game/piece.py`, `src/game/board.py` and `src/game/game_controller.py`.

The board is the 10×10 numpy grid of `Board.board`; a cell holds `0` (empty)
or a `Piece` object, modelled here as `Option Piece`.  `Board.get_piece`
returns `None` for out-of-range coordinates, which is distinct from an empty
cell, so it is modelled as `Option Cell`: `none` = out of range,
`some none` = empty square, `some (some p)` = a piece.

Python `while` loops that walk along a diagonal ray are modelled as
structural recursion on a step counter: every such loop advances one diagonal
step per iteration and a ray leaves the 10×10 board within `BOARD_SIZE`
steps, so a counter of `BOARD_SIZE` is enough for any in-range walk.
The recursion of `_get_captures` is modelled with an explicit recursion
budget (`getCapturesFuel`); `Board.get_captures` instantiates the budget
with the number of pieces on the board, and the termination claim C9 is the
statement that any larger budget computes the same map.
-/

namespace Checkers

/-- Modelled from the spec: the module `game/constants.py` is not among the
sources; §1 and §3 of the spec fix a 10×10 board (`BOARD_SIZE = 10`), the
two colors White/Black and the two ranks Man (`PION`) and King (`DAME`). -/
abbrev BOARD_SIZE : Nat := 10

/-- Piece color, the `WHITE` / `BLACK` constants. -/
inductive Color where
  | white
  | black
deriving DecidableEq, Repr

/-- The `BLACK if ... == WHITE else WHITE` idiom of the controller. -/
def Color.other : Color → Color
  | .white => .black
  | .black => .white

/-- Piece rank, the `PION` / `DAME` constants. -/
inductive PieceType where
  | pion
  | dame
deriving DecidableEq, Repr

/-- `Piece` from `src/game/piece.py`: a color and a rank. -/
structure Piece where
  color : Color
  type : PieceType
deriving DecidableEq, Repr

/-- One numpy cell: `0` (empty) or a `Piece`. -/
abbrev Cell := Option Piece

/-- The 10×10 grid `Board.board`. -/
structure Board where
  board : Fin BOARD_SIZE → Fin BOARD_SIZE → Cell

/-- `Board.is_valid_position`. -/
def validPos (row col : Int) : Prop :=
  0 ≤ row ∧ row < (BOARD_SIZE : Int) ∧ 0 ≤ col ∧ col < (BOARD_SIZE : Int)

instance (row col : Int) : Decidable (validPos row col) := by
  unfold validPos
  exact inferInstance

/-- Index pair of an in-range coordinate. -/
def posIdx (row col : Int) (h : validPos row col) : Fin BOARD_SIZE × Fin BOARD_SIZE :=
  (⟨row.toNat, by obtain ⟨h1, h2, h3, h4⟩ := h; omega⟩,
   ⟨col.toNat, by obtain ⟨h1, h2, h3, h4⟩ := h; omega⟩)

/-- `Board.get_piece`: `none` when out of range, otherwise the cell. -/
def Board.get_piece (b : Board) (row col : Int) : Option Cell :=
  if h : validPos row col then
    some (b.board (posIdx row col h).1 (posIdx row col h).2)
  else none

/-- `Board.set_piece`: bounds-checked cell write (a no-op out of range). -/
def Board.set_piece (b : Board) (row col : Int) (p : Cell) : Board :=
  if validPos row col then
    ⟨fun i j => if (i.val : Int) = row ∧ (j.val : Int) = col then p else b.board i j⟩
  else b

/-- `Board.remove_piece`: bounds-checked write of `0`. -/
def Board.remove_piece (b : Board) (row col : Int) : Board :=
  b.set_piece row col none

/-- `Board.move_piece`: if the origin holds a piece, write it at the
destination, clear the origin and return `True`; otherwise return `False`.
The Python method mutates the board and returns a bool; here it returns the
pair (returned bool, resulting board). -/
def Board.move_piece (b : Board) (fromRow fromCol toRow toCol : Int) : Bool × Board :=
  match b.get_piece fromRow fromCol with
  | some (some p) => (true, ((b.set_piece toRow toCol (some p)).remove_piece fromRow fromCol))
  | _ => (false, b)

/-- The capture / move maps of `board.py` are Python dicts
`(row, col) -> list of captured (row, col)`; modelled as association lists
with the dict update discipline of `dictInsert`. -/
abbrev CaptureMap := List ((Int × Int) × List (Int × Int))

/-- Python dict assignment `m[k] = v`: overwrite in place if the key exists,
append otherwise (insertion order is preserved, as in Python dicts). -/
def dictInsert (m : CaptureMap) (k : Int × Int) (v : List (Int × Int)) : CaptureMap :=
  if m.any (fun e => decide (e.1 = k)) then
    m.map (fun e => if e.1 = k then (k, v) else e)
  else m ++ [(k, v)]

/-- Python dict lookup `m[k]` / `k in m`. -/
def dictLookup (m : CaptureMap) (k : Int × Int) : Option (List (Int × Int)) :=
  match m with
  | [] => none
  | e :: rest => if e.1 = k then some e.2 else dictLookup rest k

/-- The direction list `[(-1,-1), (-1,1), (1,-1), (1,1)]`. -/
def dirs4 : List (Int × Int) := [(-1, -1), (-1, 1), (1, -1), (1, 1)]

/-- All cells of the grid, for piece counting. -/
def allPos : List (Fin BOARD_SIZE × Fin BOARD_SIZE) :=
  (List.finRange BOARD_SIZE).flatMap fun i => (List.finRange BOARD_SIZE).map fun j => (i, j)

/-- Number of pieces on the board (the recursion measure of the capture
search: every hypothetical board of a chain continuation has one piece
fewer). -/
def Board.totalPieces (b : Board) : Nat :=
  allPos.countP fun ij => (b.board ij.1 ij.2).isSome

/-- Number of pieces of one color on the board. -/
def Board.colorCount (b : Board) (c : Color) : Nat :=
  allPos.countP fun ij =>
    match b.board ij.1 ij.2 with
    | some p => decide (p.color = c)
    | none => false

/-- The Man branch of `Board._get_captures` for one direction `d`:
if the adjacent square holds an opposing piece and the square beyond is
empty, record the landing with chain `[adjacent]`, then merge the chains of
the recursive search on the hypothetical board (piece moved to the landing,
captured piece removed), prefixing the captured square. -/
def pionCaptureDir (recurse : Board → Int → Int → CaptureMap) (b : Board)
    (row col : Int) (p : Piece) (d : Int × Int) (acc : CaptureMap) : CaptureMap :=
  let nr := row + d.1
  let nc := col + d.2
  match b.get_piece nr nc with
  | some (some q) =>
    if q.color ≠ p.color then
      let jr := nr + d.1
      let jc := nc + d.2
      if b.get_piece jr jc = some none then
        let acc1 := dictInsert acc (jr, jc) [(nr, nc)]
        let temp := ((b.move_piece row col jr jc).2).remove_piece nr nc
        (recurse temp jr jc).foldl (fun a e => dictInsert a e.1 ((nr, nc) :: e.2)) acc1
      else acc
    else acc
  | _ => acc

/-- Phase 1 of the King branch of `_get_captures` for one direction: walk
outward through empty squares; stop with `none` at the edge or at a
same-color piece, stop with `some (r, c)` at the first opposing piece.
The step counter bounds the walk (a ray exits the board within
`BOARD_SIZE` steps). -/
def dameScan (b : Board) (p : Piece) (d : Int × Int) :
    Nat → Int → Int → Option (Int × Int)
  | 0, _, _ => none
  | steps + 1, r, c =>
    match b.get_piece r c with
    | none => none
    | some none => dameScan b p d steps (r + d.1) (c + d.2)
    | some (some q) => if q.color = p.color then none else some (r, c)

/-- Phase 2 of the King branch for one direction: every contiguous empty
square past the opposing piece at `opp` is a landing with chain `[opp]`,
each merged with the recursive search on the hypothetical board. -/
def dameLand (recurse : Board → Int → Int → CaptureMap) (b : Board)
    (row col : Int) (opp : Int × Int) (d : Int × Int) :
    Nat → Int → Int → CaptureMap → CaptureMap
  | 0, _, _, acc => acc
  | steps + 1, r, c, acc =>
    if b.get_piece r c = some none then
      let acc1 := dictInsert acc (r, c) [opp]
      let temp := ((b.move_piece row col r c).2).remove_piece opp.1 opp.2
      let acc2 := (recurse temp r c).foldl (fun a e => dictInsert a e.1 (opp :: e.2)) acc1
      dameLand recurse b row col opp d steps (r + d.1) (c + d.2) acc2
    else acc

/-- The King branch of `_get_captures` for one direction. -/
def dameCaptureDir (recurse : Board → Int → Int → CaptureMap) (b : Board)
    (row col : Int) (p : Piece) (d : Int × Int) (acc : CaptureMap) : CaptureMap :=
  match dameScan b p d BOARD_SIZE (row + d.1) (col + d.2) with
  | none => acc
  | some opp => dameLand recurse b row col opp d BOARD_SIZE (opp.1 + d.1) (opp.2 + d.2) acc

/-- `Board._get_captures` with an explicit recursion budget.  The Python
recursion is unbounded syntactically; it terminates because every chain
continuation runs on a board with one opposing piece fewer, which is claim
C9: any budget of at least `totalPieces` computes the same map. -/
def getCapturesFuel : Nat → Board → Int → Int → CaptureMap
  | 0, _, _, _ => []
  | fuel + 1, b, row, col =>
    match b.get_piece row col with
    | some (some p) =>
      if p.type = PieceType.pion then
        dirs4.foldl (fun acc d => pionCaptureDir (getCapturesFuel fuel) b row col p d acc) []
      else
        dirs4.foldl (fun acc d => dameCaptureDir (getCapturesFuel fuel) b row col p d acc) []
    | _ => []

/-- `Board._get_captures`. -/
def Board.get_captures (b : Board) (row col : Int) : CaptureMap :=
  getCapturesFuel b.totalPieces b row col

/-- The King sliding loop of `Board.get_valid_moves`: every consecutive
empty square along the ray is a landing with an empty capture list. -/
def kingSlideDir (b : Board) (d : Int × Int) :
    Nat → Int → Int → CaptureMap → CaptureMap
  | 0, _, _, acc => acc
  | steps + 1, r, c, acc =>
    if b.get_piece r c = some none then
      kingSlideDir b d steps (r + d.1) (c + d.2) (dictInsert acc (r, c) [])
    else acc

/-- `Board.get_valid_moves`. -/
def Board.get_valid_moves (b : Board) (row col : Int) (color : Color) : CaptureMap :=
  match b.get_piece row col with
  | some (some p) =>
    if p.color = color then
      let captures := b.get_captures row col
      if captures ≠ [] then captures
      else if p.type = PieceType.pion then
        let ds : List (Int × Int) :=
          if color = Color.white then [(-1, -1), (-1, 1)] else [(1, -1), (1, 1)]
        ds.foldl (fun acc d =>
          if b.get_piece (row + d.1) (col + d.2) = some none then
            dictInsert acc (row + d.1, col + d.2) []
          else acc) []
      else
        dirs4.foldl (fun acc d => kingSlideDir b d BOARD_SIZE (row + d.1) (col + d.2) acc) []
    else []
  | _ => []

/-- `Board.reset` / `Board.__init__`: Black men on the dark squares of rows
0–3, White men on the dark squares of rows 6–9. -/
def boardReset : Board :=
  ⟨fun i j =>
    if (i.val + j.val) % 2 = 1 then
      if i.val < 4 then some ⟨Color.black, PieceType.pion⟩
      else if 6 ≤ i.val then some ⟨Color.white, PieceType.pion⟩
      else none
    else none⟩

/-- The `GameController` state (the GameState of the spec): board, side to move,
selection, cached valid moves, capture flag, terminal data and the piece
counters.  The game recorder is I/O-only bookkeeping and is not part of the
rule engine state. -/
structure GState where
  board : Board
  current_player : Color
  selected_piece : Option (Int × Int)
  valid_moves : CaptureMap
  captures_available : Bool
  game_over : Bool
  winner : Option Color
  piece_count : Color → Int

/-- `GameController.__init__` / `reset`. -/
def initState : GState where
  board := boardReset
  current_player := Color.white
  selected_piece := none
  valid_moves := []
  captures_available := false
  game_over := false
  winner := none
  piece_count := fun _ => 20

/-- `GameController.check_captures_available`: scan the whole board for a
piece of the current player with a non-empty capture map. -/
def GState.check_captures_available (s : GState) : Bool :=
  (List.range BOARD_SIZE).any fun r =>
    (List.range BOARD_SIZE).any fun c =>
      match s.board.get_piece (r : Int) (c : Int) with
      | some (some p) =>
        decide (p.color = s.current_player) && decide (s.board.get_captures (r : Int) (c : Int) ≠ [])
      | _ => false

/-- `GameController.can_piece_capture`. -/
def GState.can_piece_capture (s : GState) (row col : Int) : Bool :=
  decide (s.board.get_captures row col ≠ [])

/-- `GameController.select`: deselect on re-click; recompute the forced
capture flag; reject capture-incapable pieces when a capture exists; select
and cache `get_valid_moves` otherwise. -/
def GState.select (s : GState) (row col : Int) : Bool × GState :=
  if s.selected_piece = some (row, col) then
    (false, { s with selected_piece := none, valid_moves := [] })
  else
    let ca := s.check_captures_available
    let s1 := { s with captures_available := ca }
    match s.board.get_piece row col with
    | some (some p) =>
      if p.color = s.current_player then
        if ca && ! s.can_piece_capture row col then
          (false, s1)
        else
          (true, { s1 with
                    selected_piece := some (row, col),
                    valid_moves := s.board.get_valid_moves row col s.current_player })
      else (false, s1)
    | _ => (false, s1)

/-- `GameController.move`: if a piece is selected and the destination is a
key of `valid_moves`, remove the captured squares (decrementing the
opponent counter per element), relocate the piece, promote a Man reaching
the far rank, clear the selection, set the terminal fields when a counter
reaches zero, and switch the side to move. -/
def GState.move (s : GState) (row col : Int) : Bool × GState :=
  match s.selected_piece with
  | none => (false, s)
  | some fp =>
    match dictLookup s.valid_moves (row, col) with
    | none => (false, s)
    | some captured =>
      let opp := s.current_player.other
      let b1 := captured.foldl (fun b q => b.remove_piece q.1 q.2) s.board
      let pc1 : Color → Int := fun c =>
        if c = opp then s.piece_count c - captured.length else s.piece_count c
      let b2 := (b1.move_piece fp.1 fp.2 row col).2
      let b3 :=
        match b2.get_piece row col with
        | some (some p) =>
          if p.type = PieceType.pion ∧
             ((p.color = Color.white ∧ row = 0) ∨
              (p.color = Color.black ∧ row = (BOARD_SIZE : Int) - 1)) then
            b2.set_piece row col (some ⟨p.color, PieceType.dame⟩)
          else b2
        | _ => b2
      let s1 : GState :=
        { s with board := b3, piece_count := pc1, selected_piece := none, valid_moves := [] }
      let s2 :=
        if pc1 Color.black = 0 then { s1 with game_over := true, winner := some Color.white }
        else if pc1 Color.white = 0 then { s1 with game_over := true, winner := some Color.black }
        else s1
      (true, { s2 with current_player := s.current_player.other })

/-! ### Concrete boards used by the tests of §8 of the spec -/

/-- A board with no pieces. -/
def emptyBoard : Board := ⟨fun _ _ => none⟩

/-- Put one piece on a board. -/
def putP (b : Board) (r c : Int) (col : Color) (t : PieceType) : Board :=
  b.set_piece r c (some ⟨col, t⟩)

/-- The multi-jump test board of §8: a White man at (6,1), Black men at
(5,2) and (3,4), every other square empty. -/
def b1c : Board :=
  putP (putP (putP emptyBoard 6 1 .white .pion) 5 2 .black .pion) 3 4 .black .pion

/-- A King board: a White king at (5,4) facing Black men at (4,3), (4,5),
(2,5), (2,3) and (2,1), with White men at (2,7), (4,1) and (0,3) closing
the side rays. -/
def bK : Board :=
  putP (putP (putP (putP (putP (putP (putP (putP (putP emptyBoard
    5 4 .white .dame) 2 7 .white .pion) 4 1 .white .pion) 0 3 .white .pion)
    4 3 .black .pion) 4 5 .black .pion) 2 5 .black .pion) 2 3 .black .pion) 2 1 .black .pion

/-! ### Basic lemmas about the board primitives -/

theorem validPos_of_get_piece {b : Board} {r c : Int} {x : Cell}
    (h : b.get_piece r c = some x) : validPos r c := by
  by_contra hv
  rw [Board.get_piece, dif_neg hv] at h
  exact Option.noConfusion h

theorem posIdx_fst_cast {r c : Int} (h : validPos r c) :
    (((posIdx r c h).1 : Nat) : Int) = r := by
  obtain ⟨h1, h2, h3, h4⟩ := h
  simp [posIdx]
  omega

theorem posIdx_snd_cast {r c : Int} (h : validPos r c) :
    (((posIdx r c h).2 : Nat) : Int) = c := by
  obtain ⟨h1, h2, h3, h4⟩ := h
  simp [posIdx]
  omega

theorem Board.get_piece_pos (b : Board) {r c : Int} (h : validPos r c) :
    b.get_piece r c = some (b.board (posIdx r c h).1 (posIdx r c h).2) :=
  dif_pos h

theorem Board.get_piece_neg (b : Board) {r c : Int} (h : ¬ validPos r c) :
    b.get_piece r c = none :=
  dif_neg h

/-- Effect of `set_piece` on `get_piece`. -/
theorem Board.get_set (b : Board) (r c : Int) (v : Cell) (r' c' : Int) :
    (b.set_piece r c v).get_piece r' c' =
      if validPos r c ∧ r = r' ∧ c = c' then some v else b.get_piece r' c' := by
  by_cases hv : validPos r c
  · by_cases hv' : validPos r' c'
    · rw [Board.get_piece_pos _ hv', Board.get_piece_pos _ hv']
      have hset : (b.set_piece r c v).board = fun (i j : Fin BOARD_SIZE) =>
          if ((i : Nat) : Int) = r ∧ ((j : Nat) : Int) = c then v else b.board i j := by
        rw [Board.set_piece, if_pos hv]
      rw [hset]
      simp only [posIdx_fst_cast hv', posIdx_snd_cast hv']
      by_cases he : r = r' ∧ c = c'
      · rw [if_pos ⟨he.1.symm, he.2.symm⟩, if_pos ⟨hv, he⟩]
      · rw [if_neg (fun hx => he ⟨hx.1.symm, hx.2.symm⟩), if_neg (fun hx => he hx.2)]
    · have hne : ¬ (validPos r c ∧ r = r' ∧ c = c') := by
        rintro ⟨_, rfl, rfl⟩; exact hv' hv
      rw [if_neg hne, Board.get_piece_neg _ hv', Board.get_piece_neg _ hv']
  · have : b.set_piece r c v = b := by rw [Board.set_piece, if_neg hv]
    rw [this, if_neg (fun hx => hv hx.1)]

/-- Effect of `remove_piece` on `get_piece`. -/
theorem Board.get_remove (b : Board) (r c : Int) (r' c' : Int) :
    (b.remove_piece r c).get_piece r' c' =
      if validPos r c ∧ r = r' ∧ c = c' then some none else b.get_piece r' c' :=
  Board.get_set b r c none r' c'

/-- Effect of a fold of `remove_piece` over a list of squares. -/
theorem foldl_remove_get (l : List (Int × Int)) (b : Board) (r c : Int) :
    (l.foldl (fun b q => b.remove_piece q.1 q.2) b).get_piece r c =
      if (r, c) ∈ l ∧ validPos r c then some none else b.get_piece r c := by
  induction l generalizing b with
  | nil => simp
  | cons q rest ih =>
    rw [List.foldl_cons, ih, Board.get_remove]
    by_cases hmem : (r, c) ∈ rest ∧ validPos r c
    · rw [if_pos hmem, if_pos ⟨List.mem_cons_of_mem _ hmem.1, hmem.2⟩]
    · rw [if_neg hmem]
      by_cases hq : validPos q.1 q.2 ∧ q.1 = r ∧ q.2 = c
      · have hq' : q = (r, c) := by
          obtain ⟨_, h1, h2⟩ := hq
          cases q
          simp_all
        have hmem' : (r, c) ∈ q :: rest := by
          rw [hq']; exact List.mem_cons_self _ _
        have hvrc : validPos r c := by rw [hq'] at hq; exact hq.1
        rw [if_pos hq, if_pos ⟨hmem', hvrc⟩]
      · rw [if_neg hq]
        by_cases hc : (r, c) ∈ q :: rest ∧ validPos r c
        · rcases List.mem_cons.mp hc.1 with he | hm
          · subst he
            exact absurd ⟨hc.2, rfl, rfl⟩ hq
          · exact absurd ⟨hm, hc.2⟩ hmem
        · rw [if_neg hc]

/-! ### C10: `move_piece` with an invalid or identical destination deletes
the piece -/

/-- C10: for a board with a piece at an in-bounds origin, `move_piece` to an
out-of-bounds destination or to the origin itself returns `true`, clears the
origin, and leaves every other cell unchanged: the piece is deleted rather
than relocated. -/
theorem c10_move_piece_deletes (b : Board) (fr fc tr tc : Int) (p : Piece)
    (hp : b.get_piece fr fc = some (some p))
    (hto : ¬ validPos tr tc ∨ (tr, tc) = (fr, fc)) :
    (b.move_piece fr fc tr tc).1 = true ∧
    (b.move_piece fr fc tr tc).2.get_piece fr fc = some none ∧
    ∀ r c, (r, c) ≠ (fr, fc) →
      (b.move_piece fr fc tr tc).2.get_piece r c = b.get_piece r c := by
  have hvf : validPos fr fc := validPos_of_get_piece hp
  have hmv : b.move_piece fr fc tr tc =
      (true, ((b.set_piece tr tc (some p)).remove_piece fr fc)) := by
    rw [Board.move_piece, hp]
  refine ⟨by rw [hmv], ?_, ?_⟩
  · rw [hmv]
    show ((b.set_piece tr tc (some p)).remove_piece fr fc).get_piece fr fc = some none
    rw [Board.get_remove, if_pos ⟨hvf, rfl, rfl⟩]
  · intro r c hne
    rw [hmv]
    show ((b.set_piece tr tc (some p)).remove_piece fr fc).get_piece r c = _
    rw [Board.get_remove, Board.get_set]
    have h1 : ¬ (validPos fr fc ∧ fr = r ∧ fc = c) := by
      rintro ⟨_, rfl, rfl⟩; exact hne rfl
    have h2 : ¬ (validPos tr tc ∧ tr = r ∧ tc = c) := by
      rintro ⟨hv, rfl, rfl⟩
      rcases hto with hbad | hbad
      · exact hbad hv
      · exact hne (by rw [← hbad])
    rw [if_neg h1, if_neg h2]

/-- Witness for C10 at a concrete input: the reset board holds a Black man
at (0, 1); moving it onto itself returns `true` and deletes it. -/
theorem c10_witness :
    boardReset.get_piece 0 1 = some (some ⟨Color.black, PieceType.pion⟩) ∧
    (boardReset.move_piece 0 1 0 1).1 = true ∧
    (boardReset.move_piece 0 1 0 1).2.get_piece 0 1 = some none ∧
    (boardReset.move_piece 0 1 0 1).2.get_piece 0 3 = boardReset.get_piece 0 3 := by
  refine ⟨by decide, ?_, ?_, ?_⟩
  · exact (c10_move_piece_deletes boardReset 0 1 0 1 ⟨Color.black, PieceType.pion⟩
      (by decide) (Or.inr rfl)).1
  · exact (c10_move_piece_deletes boardReset 0 1 0 1 ⟨Color.black, PieceType.pion⟩
      (by decide) (Or.inr rfl)).2.1
  · exact (c10_move_piece_deletes boardReset 0 1 0 1 ⟨Color.black, PieceType.pion⟩
      (by decide) (Or.inr rfl)).2.2 0 3 (by decide)

/-! ### C3: mandatory captures in `get_valid_moves` -/

/-- C3: for a piece of the queried color, a non-empty capture search makes
`get_valid_moves` return exactly the capture map; for a piece of the other
color the result is empty. -/
theorem c3_mandatory_captures (b : Board) (row col : Int) (color : Color) (p : Piece)
    (hp : b.get_piece row col = some (some p)) :
    (p.color = color → b.get_captures row col ≠ [] →
      b.get_valid_moves row col color = b.get_captures row col) ∧
    (p.color ≠ color → b.get_valid_moves row col color = []) := by
  constructor
  · intro hc hcap
    rw [Board.get_valid_moves, hp]
    simp only [if_pos hc, if_pos hcap]
  · intro hc
    rw [Board.get_valid_moves, hp]
    simp only [if_neg hc]

/-- Witness for C3: on the board of the multi-jump test (White man (6,1),
Black men (5,2), (3,4)) the White query returns the capture map and the
Black query returns the empty map. -/
theorem c3_witness :
    b1c.get_captures 6 1 ≠ [] ∧
    b1c.get_valid_moves 6 1 Color.white = b1c.get_captures 6 1 ∧
    b1c.get_valid_moves 6 1 Color.black = [] := by
  refine ⟨by decide, ?_, ?_⟩
  · exact (c3_mandatory_captures b1c 6 1 Color.white ⟨Color.white, PieceType.pion⟩
      (by decide)).1 rfl (by decide)
  · exact (c3_mandatory_captures b1c 6 1 Color.black ⟨Color.white, PieceType.pion⟩
      (by decide)).2 (by decide)

/-! ### C5: forced capture at the selection boundary -/

/-- C5: when some piece of the current player can capture, selecting a
(non-selected) square holding a current-player piece with no capture of its
own returns `false` and leaves the selection and the cached valid moves
unchanged. -/
theorem c5_forced_capture_select (s : GState) (row col : Int) (p : Piece)
    (hnsel : s.selected_piece ≠ some (row, col))
    (hca : s.check_captures_available = true)
    (hp : s.board.get_piece row col = some (some p))
    (hcol : p.color = s.current_player)
    (hnocap : s.board.get_captures row col = []) :
    (s.select row col).1 = false ∧
    (s.select row col).2.selected_piece = s.selected_piece ∧
    (s.select row col).2.valid_moves = s.valid_moves := by
  have hcan : s.can_piece_capture row col = false := by
    rw [GState.can_piece_capture, hnocap]
    simp
  rw [GState.select, if_neg hnsel]
  simp only [hca, hp, hcan]
  rw [if_pos hcol]
  simp

/-- A state for the C5 witness: White to move, White man (6,1) able to jump
the Black man (5,2), White man (9,0) without a capture. -/
def c5State : GState where
  board := putP (putP (putP emptyBoard 6 1 .white .pion) 5 2 .black .pion) 9 0 .white .pion
  current_player := .white
  selected_piece := none
  valid_moves := []
  captures_available := false
  game_over := false
  winner := none
  piece_count := fun c => match c with | .white => 2 | .black => 1

/-- Witness for C5: selecting the capture-incapable White man (9,0) while
(6,1) has a capture is rejected and changes no selection state. -/
theorem c5_witness :
    (c5State.select 9 0).1 = false ∧
    (c5State.select 9 0).2.selected_piece = c5State.selected_piece ∧
    (c5State.select 9 0).2.valid_moves = c5State.valid_moves :=
  c5_forced_capture_select c5State 9 0 ⟨Color.white, PieceType.pion⟩
    (by decide) (by decide) (by decide) (by decide) (by decide)

/-! ### C6: win detection inside the same `move` call -/

/-- C6: a successful `move` whose chain removals bring the Black counter to
zero sets `game_over` and `winner = White` in the same call (symmetrically
for White reaching zero with Black still positive), and the side to move is
switched even though the game just ended. -/
theorem c6_win_detection (s : GState) (row col fr fc : Int) (ch : List (Int × Int))
    (hsel : s.selected_piece = some (fr, fc))
    (hch : dictLookup s.valid_moves (row, col) = some ch) :
    (s.current_player = Color.white → s.piece_count Color.black = ch.length →
      (s.move row col).1 = true ∧ (s.move row col).2.game_over = true ∧
      (s.move row col).2.winner = some Color.white ∧
      (s.move row col).2.current_player = Color.black) ∧
    (s.current_player = Color.black → s.piece_count Color.white = ch.length →
      s.piece_count Color.black ≠ 0 →
      (s.move row col).1 = true ∧ (s.move row col).2.game_over = true ∧
      (s.move row col).2.winner = some Color.black ∧
      (s.move row col).2.current_player = Color.white) := by
  constructor
  · intro hcur hcnt
    have hz : s.piece_count Color.black - (ch.length : Int) = 0 := by omega
    rw [GState.move, hsel, hch]
    simp only [hcur, Color.other]
    simp [hz]
  · intro hcur hcnt hbz
    have hz : s.piece_count Color.white - (ch.length : Int) = 0 := by omega
    rw [GState.move, hsel, hch]
    simp only [hcur, Color.other]
    simp [hz, hbz]

/-- A state for the C6 witness: one White man about to capture the last
Black man. -/
def c6State : GState where
  board := putP (putP emptyBoard 6 1 .white .pion) 5 2 .black .pion
  current_player := .white
  selected_piece := some (6, 1)
  valid_moves := [((4, 3), [(5, 2)])]
  captures_available := true
  game_over := false
  winner := none
  piece_count := fun _ => 1

/-- Witness for C6: capturing the last Black man ends the game with winner
White and still hands the turn to Black. -/
theorem c6_witness :
    (c6State.move 4 3).1 = true ∧ (c6State.move 4 3).2.game_over = true ∧
    (c6State.move 4 3).2.winner = some Color.white ∧
    (c6State.move 4 3).2.current_player = Color.black :=
  (c6_win_detection c6State 4 3 6 1 [(5, 2)] rfl (by decide)).1 rfl (by decide)

/-! ### C8: promotion is applied by the controller, never by `move_piece` -/

/-- C8: `move_piece` never alters a piece value (so never a rank): every
piece in its output board is a piece value of its input board.  After a
successful controller `move` of a piece `p` (destination in range, distinct
from the origin, origin not among the captured squares), the destination
holds the promoted King exactly when `p` is a Man reaching its far rank
(row 0 for White, row `BOARD_SIZE - 1` for Black) and the unchanged `p`
otherwise, while every other square is either untouched or emptied — so no
other move changes the rank of any piece. -/
theorem c8_promotion_locus (s : GState) (row col fr fc : Int) (ch : List (Int × Int)) (p : Piece)
    (hsel : s.selected_piece = some (fr, fc))
    (hch : dictLookup s.valid_moves (row, col) = some ch)
    (hp : s.board.get_piece fr fc = some (some p))
    (hv : validPos row col)
    (hne : (row, col) ≠ (fr, fc))
    (hnotin : (fr, fc) ∉ ch) :
    (∀ (b : Board) (a1 a2 a3 a4 r c : Int) (q : Piece),
       (b.move_piece a1 a2 a3 a4).2.get_piece r c = some (some q) →
       ∃ r0 c0, b.get_piece r0 c0 = some (some q)) ∧
    (s.move row col).1 = true ∧
    (s.move row col).2.board.get_piece row col =
      some (some (if p.type = PieceType.pion ∧
          ((p.color = Color.white ∧ row = 0) ∨
           (p.color = Color.black ∧ row = (BOARD_SIZE : Int) - 1))
        then ⟨p.color, PieceType.dame⟩ else p)) ∧
    (∀ r' c', (r', c') ≠ (row, col) →
      (s.move row col).2.board.get_piece r' c' = s.board.get_piece r' c' ∨
      (s.move row col).2.board.get_piece r' c' = some none) := by
  have hvf : validPos fr fc := validPos_of_get_piece hp
  -- the board after removing the captured squares
  set b1 := ch.foldl (fun b q => b.remove_piece q.1 q.2) s.board with hb1def
  have hb1 : b1.get_piece fr fc = some (some p) := by
    rw [hb1def, foldl_remove_get, if_neg (fun hx => hnotin hx.1), hp]
  have hmv : b1.move_piece fr fc row col =
      (true, ((b1.set_piece row col (some p)).remove_piece fr fc)) := by
    rw [Board.move_piece, hb1]
  set b2 := (b1.set_piece row col (some p)).remove_piece fr fc with hb2def
  have hnef : ¬ (validPos fr fc ∧ fr = row ∧ fc = col) := by
    rintro ⟨_, h1, h2⟩
    exact hne (by rw [h1, h2])
  have hb2dest : b2.get_piece row col = some (some p) := by
    rw [hb2def, Board.get_remove, if_neg hnef, Board.get_set, if_pos ⟨hv, rfl, rfl⟩]
  -- what the move call returns and what its final board is
  have hm1 : (s.move row col).1 = true := by
    rw [GState.move, hsel, hch]
  have hmb : (s.move row col).2.board =
      (if p.type = PieceType.pion ∧
          ((p.color = Color.white ∧ row = 0) ∨
           (p.color = Color.black ∧ row = (BOARD_SIZE : Int) - 1)) then
        b2.set_piece row col (some ⟨p.color, PieceType.dame⟩)
      else b2) := by
    rw [GState.move, hsel, hch]
    simp only [← hb1def, hmv, ← hb2def, hb2dest]
    simp only [apply_ite GState.board, ite_self]
  refine ⟨?_, ?_, ?_, ?_⟩
  · intro b a1 a2 a3 a4 r c q hq
    rw [Board.move_piece] at hq
    rcases hg : b.get_piece a1 a2 with _ | ⟨_ | pp⟩ <;> rw [hg] at hq
    · exact ⟨r, c, hq⟩
    · exact ⟨r, c, hq⟩
    · rw [Board.get_remove] at hq
      by_cases h1 : validPos a1 a2 ∧ a1 = r ∧ a2 = c
      · rw [if_pos h1] at hq
        exact Option.noConfusion (Option.some.inj hq)
      · rw [if_neg h1, Board.get_set] at hq
        by_cases h2 : validPos a3 a4 ∧ a3 = r ∧ a4 = c
        · rw [if_pos h2] at hq
          exact ⟨a1, a2, by rw [hg, Option.some.inj hq]⟩
        · rw [if_neg h2] at hq
          exact ⟨r, c, hq⟩
  · exact hm1
  · rw [hmb]
    by_cases hcond : p.type = PieceType.pion ∧
        ((p.color = Color.white ∧ row = 0) ∨
         (p.color = Color.black ∧ row = (BOARD_SIZE : Int) - 1))
    · simp only [if_pos hcond]
      show (b2.set_piece row col (some ⟨p.color, PieceType.dame⟩)).get_piece row col = _
      rw [Board.get_set, if_pos ⟨hv, rfl, rfl⟩]
    · simp only [if_neg hcond]
      exact hb2dest
  · intro r' c' hne'
    rw [hmb]
    have hnd : ¬ (validPos row col ∧ row = r' ∧ col = c') := by
      rintro ⟨_, h1, h2⟩
      exact hne' (by rw [h1, h2])
    have hb2other : b2.get_piece r' c' = s.board.get_piece r' c' ∨
        b2.get_piece r' c' = some none := by
      rw [hb2def, Board.get_remove]
      by_cases h1 : validPos fr fc ∧ fr = r' ∧ fc = c'
      · exact Or.inr (if_pos h1)
      · rw [if_neg h1, Board.get_set, if_neg hnd, hb1def, foldl_remove_get]
        by_cases h2 : (r', c') ∈ ch ∧ validPos r' c'
        · exact Or.inr (if_pos h2)
        · exact Or.inl (if_neg h2)
    by_cases hcond : p.type = PieceType.pion ∧
        ((p.color = Color.white ∧ row = 0) ∨
         (p.color = Color.black ∧ row = (BOARD_SIZE : Int) - 1))
    · simp only [if_pos hcond]
      show (b2.set_piece row col (some ⟨p.color, PieceType.dame⟩)).get_piece r' c' = _ ∨
        (b2.set_piece row col (some ⟨p.color, PieceType.dame⟩)).get_piece r' c' = some none
      rw [Board.get_set, if_neg hnd]
      exact hb2other
    · simp only [if_neg hcond]
      exact hb2other

/-- A state for the C8 witness: a White man at (1,2) one step from row 0. -/
def c8State : GState where
  board := putP emptyBoard 1 2 .white .pion
  current_player := .white
  selected_piece := some (1, 2)
  valid_moves := [((0, 1), []), ((0, 3), [])]
  captures_available := false
  game_over := false
  winner := none
  piece_count := fun c => match c with | .white => 1 | .black => 0

/-- Witness for C8: moving the White man from (1,2) to (0,1) leaves a White
King at (0,1). -/
theorem c8_witness :
    (c8State.move 0 1).1 = true ∧
    (c8State.move 0 1).2.board.get_piece 0 1 =
      some (some ⟨Color.white, PieceType.dame⟩) := by
  have h := c8_promotion_locus c8State 0 1 1 2 [] ⟨Color.white, PieceType.pion⟩
    rfl (by decide) (by decide) (by decide) (by decide) (by decide)
  refine ⟨h.2.1, ?_⟩
  have h2 := h.2.2.1
  rw [if_pos ⟨rfl, Or.inl ⟨rfl, rfl⟩⟩] at h2
  exact h2

/-! ### C1: the multi-jump test of §8 -/

/-- C1 counterexample: on the §8 board, a further capture does exist from
the intermediate landing (4,3) (the hypothetical board after the first jump
still yields a capture from there), yet `get_captures (6,1)` still reports
the intermediate terminal `(4,3) → [(5,2)]`.  The claim says the
intermediate entry is reported only if no further capture existed. -/
theorem c1_counterexample :
    dictLookup (b1c.get_captures 6 1) (4, 3) = some [(5, 2)] ∧
    ((b1c.move_piece 6 1 4 3).2.remove_piece 5 2).get_captures 4 3 ≠ [] := by
  constructor
  · decide
  · decide

/-- C1 amended: on the constructed board of §8 the capture search from
(6,1) yields exactly the full chain entry `(2,5) → [(5,2),(3,4)]` and the
intermediate terminal `(4,3) → [(5,2)]`; the intermediate entry is kept
even though a further capture exists from (4,3) — an entry is displaced
only when a later-computed chain ends on the same square. -/
theorem c1_amended_multijump :
    b1c.get_captures 6 1 = [((4, 3), [(5, 2)]), ((2, 5), [(5, 2), (3, 4)])] := by
  decide

/-! ### C2: `Board.copy` and Python reference semantics

The main model above uses value semantics, which is observationally
faithful for the cell-level operations (`set_piece` / `remove_piece` /
`move_piece` rebind cells, they never mutate a `Piece` object).  To settle
C2 the Python object semantics matters: `Piece` objects live on a heap and
a grid cell stores a reference.  `Board.copy` as implemented
(`new_board.board[row, col] = self.board[row, col]`) copies the cell
contents — the references — so the copy shares every `Piece` object with
the original, and `Piece.promote` (`self.type = DAME`) mutates the shared
object. -/

/-- A board under reference semantics: cells hold heap references. -/
structure RBoard where
  grid : Fin BOARD_SIZE → Fin BOARD_SIZE → Option Nat

/-- `Board.copy` as implemented: a fresh grid whose cells hold the same
references as the original. -/
def RBoard.copy (b : RBoard) : RBoard := ⟨fun i j => b.grid i j⟩

/-- `Piece.promote` from `src/game/piece.py`: mutate the referenced object
in place (`self.type = DAME`). -/
def promoteAt (heap : List Piece) (ref : Nat) : List Piece :=
  match heap.get? ref with
  | some p => heap.set ref ⟨p.color, PieceType.dame⟩
  | none => heap

/-- Dereference the piece, if any, visible at a cell. -/
def readPiece (heap : List Piece) (b : RBoard) (i j : Fin BOARD_SIZE) : Option Piece :=
  match b.grid i j with
  | some ref => heap.get? ref
  | none => none

/-- The one-piece heap of the C2 failing input. -/
def c2Heap : List Piece := [⟨Color.white, PieceType.pion⟩]

/-- A board holding that piece at (6,1). -/
def c2Board : RBoard := ⟨fun i j => if i.val = 6 ∧ j.val = 1 then some 0 else none⟩

/-- C2 demonstration: the copy shows identical pieces at identical
coordinates, but it shares the piece objects: promoting the piece reached
through the copy at (6,1) (reference 0) changes the rank the *original*
board reads there from Man to King, contradicting the specified deep value
copy. -/
theorem c2_copy_aliasing :
    (∀ i j, readPiece c2Heap (c2Board.copy) i j = readPiece c2Heap c2Board i j) ∧
    readPiece c2Heap c2Board 6 1 = some ⟨Color.white, PieceType.pion⟩ ∧
    (c2Board.copy).grid 6 1 = some 0 ∧
    readPiece (promoteAt c2Heap 0) c2Board 6 1 = some ⟨Color.white, PieceType.dame⟩ := by
  refine ⟨fun i j => rfl, by decide, by decide, by decide⟩

/-! ### C4: piece counts in reachable states

The controller invariant of §3 fails on a reachable state: a capture chain
can form a cycle and land on its own origin square, and
`move_piece(from, from)` then deletes the moving piece (claim C10), so the
number of White pieces on the board drops without any White square being
captured.  The game below reaches such a state through 17 legal
select/move turns from the initial position. -/

/-- One turn: a `select` call followed by a `move` call, accumulating a
flag recording that every call so far returned `True`. -/
def playTurn (st : Bool × GState) (t : (Int × Int) × (Int × Int)) : Bool × GState :=
  let (ok1, s1) := st.2.select t.1.1 t.1.2
  let (ok2, s2) := s1.move t.2.1 t.2.2
  (st.1 && ok1 && ok2, s2)

/-- A legal game from the initial position: Black builds the diamond
(4,3), (2,3), (2,5), (4,5) around the empty squares (3,2), (1,4), (3,6),
White walks a man to (5,4), Black answers the arrival by capturing the
sacrificed man at (5,6), and White then plays the cyclic capture chain
(5,4) → (5,4) jumping all four Black men of the diamond. -/
def c4Turns : List ((Int × Int) × (Int × Int)) :=
  [ ((6, 1), (5, 2)), ((3, 6), (4, 7)), ((7, 0), (6, 1)), ((3, 2), (4, 3)),
    ((8, 1), (7, 0)), ((2, 3), (3, 2)), ((6, 7), (5, 6)), ((1, 4), (2, 3)),
    ((7, 6), (6, 7)), ((3, 2), (4, 1)), ((8, 7), (7, 6)), ((2, 7), (3, 6)),
    ((9, 6), (8, 7)), ((3, 6), (4, 5)), ((6, 5), (5, 4)), ((4, 7), (6, 5)) ]

/-- The state after the 16 preparatory turns. -/
def c4Prefix : Bool × GState := c4Turns.foldl playTurn (true, initState)

set_option maxRecDepth 100000 in
set_option maxHeartbeats 4000000 in
/-- C4: in the reachable state `c4Prefix` (every call of the 16 turns
returned `True`), White has 19 men on the board; selecting (5,4) succeeds
and offers the cyclic chain `(5,4) → [(4,5),(2,5),(2,3),(4,3)]`, whose four
captured squares all hold Black men; playing it succeeds, yet the White
board count drops to 18 — the moving White man is deleted — while
`piece_count[White]` still says 19.  The board count of a color thus decreases
without any square of that color being captured, refuting the invariant the
claim states; the claim matches the intent of the spec, the code slip is the
self-deleting `move_piece(from, from)` of C10. -/
theorem c4_cyclic_capture_deletes_piece :
    c4Prefix.1 = true ∧
    c4Prefix.2.board.colorCount Color.white = 19 ∧
    c4Prefix.2.piece_count Color.white = 19 ∧
    (c4Prefix.2.select 5 4).1 = true ∧
    dictLookup (c4Prefix.2.select 5 4).2.valid_moves (5, 4) =
      some [(4, 5), (2, 5), (2, 3), (4, 3)] ∧
    (∀ q ∈ [((4 : Int), (5 : Int)), (2, 5), (2, 3), (4, 3)],
       c4Prefix.2.board.get_piece q.1 q.2 = some (some ⟨Color.black, PieceType.pion⟩)) ∧
    ((c4Prefix.2.select 5 4).2.move 5 4).1 = true ∧
    ((c4Prefix.2.select 5 4).2.move 5 4).2.board.colorCount Color.white = 18 ∧
    ((c4Prefix.2.select 5 4).2.move 5 4).2.piece_count Color.white = 19 := by
  decide

/-! ### Counting infrastructure for the termination claim C9 -/

theorem allPos_nodup : allPos.Nodup := by decide

set_option maxRecDepth 10000 in
theorem mem_allPos : ∀ ij : Fin BOARD_SIZE × Fin BOARD_SIZE, ij ∈ allPos := by decide

theorem countP_congr_list {α : Type} (l : List α) (f g : α → Bool)
    (h : ∀ y ∈ l, f y = g y) : l.countP f = l.countP g := by
  induction l with
  | nil => rfl
  | cons a t ih =>
    rw [List.countP_cons, List.countP_cons, h a (List.mem_cons_self _ _),
      ih (fun y hy => h y (List.mem_cons_of_mem _ hy))]

/-- Changing a predicate at exactly one element of a duplicate-free list
changes `countP` by the difference at that element. -/
theorem countP_pointwise {α : Type} (l : List α) (f g : α → Bool) (x : α)
    (hx : x ∈ l) (hnd : l.Nodup)
    (hagree : ∀ y ∈ l, y ≠ x → f y = g y) :
    l.countP f + (if g x then 1 else 0) = l.countP g + (if f x then 1 else 0) := by
  induction l with
  | nil => cases hx
  | cons a t ih =>
    rw [List.countP_cons, List.countP_cons]
    rcases List.mem_cons.mp hx with rfl | hxt
    · have hagree' : ∀ y ∈ t, f y = g y := by
        intro y hy
        exact hagree y (List.mem_cons_of_mem _ hy)
          (fun h => (List.nodup_cons.mp hnd).1 (h ▸ hy))
      rw [countP_congr_list t f g hagree']
      split_ifs <;> omega
    · have hax : a ≠ x := fun h => (List.nodup_cons.mp hnd).1 (h ▸ hxt)
      rw [hagree a (List.mem_cons_self _ _) hax]
      have := ih hxt (List.nodup_cons.mp hnd).2
        (fun y hy hyx => hagree y (List.mem_cons_of_mem _ hy) hyx)
      split_ifs at this ⊢ <;> omega

/-- Cell occupancy as read through `get_piece`. -/
def cellWeight : Option Cell → Nat
  | some (some _) => 1
  | _ => 0

theorem cellWeight_empty : cellWeight (some none) = 0 := rfl

theorem cellWeight_piece (p : Piece) : cellWeight (some (some p)) = 1 := rfl

/-- Effect of `set_piece` on the piece count. -/
theorem totalPieces_set (b : Board) (r c : Int) (v : Cell) (h : validPos r c) :
    (b.set_piece r c v).totalPieces + cellWeight (b.get_piece r c) =
      b.totalPieces + (if v.isSome then 1 else 0) := by
  have hgrid : (b.set_piece r c v).board = fun (i j : Fin BOARD_SIZE) =>
      if ((i : Nat) : Int) = r ∧ ((j : Nat) : Int) = c then v else b.board i j := by
    rw [Board.set_piece, if_pos h]
  set x := posIdx r c h with hxdef
  have hagree : ∀ ij : Fin BOARD_SIZE × Fin BOARD_SIZE, ij ∈ allPos → ij ≠ x →
      ((b.set_piece r c v).board ij.1 ij.2).isSome = (b.board ij.1 ij.2).isSome := by
    intro ij _ hne
    rw [hgrid]
    have hcond : ¬ (((ij.1 : Nat) : Int) = r ∧ ((ij.2 : Nat) : Int) = c) := by
      rintro ⟨h1, h2⟩
      apply hne
      have e1 : ij.1 = x.1 := by
        rw [hxdef]
        apply Fin.ext
        have := posIdx_fst_cast h
        omega
      have e2 : ij.2 = x.2 := by
        rw [hxdef]
        apply Fin.ext
        have := posIdx_snd_cast h
        omega
      exact Prod.ext e1 e2
    simp only [if_neg hcond]
  have hkey := countP_pointwise allPos
    (fun ij => ((b.set_piece r c v).board ij.1 ij.2).isSome)
    (fun ij => (b.board ij.1 ij.2).isSome) x (mem_allPos x) allPos_nodup hagree
  have hxnew : ((b.set_piece r c v).board x.1 x.2).isSome = v.isSome := by
    rw [hgrid]
    have hcond : ((x.1 : Nat) : Int) = r ∧ ((x.2 : Nat) : Int) = c :=
      ⟨posIdx_fst_cast h, posIdx_snd_cast h⟩
    simp only [if_pos hcond]
  have hxold : cellWeight (b.get_piece r c) = if (b.board x.1 x.2).isSome then 1 else 0 := by
    rw [Board.get_piece_pos _ h, ← hxdef]
    rcases b.board x.1 x.2 with _ | _ <;> rfl
  have hkey2 : (allPos.countP fun ij => ((b.set_piece r c v).board ij.1 ij.2).isSome) +
      (if (b.board x.1 x.2).isSome then 1 else 0) =
      (allPos.countP fun ij => (b.board ij.1 ij.2).isSome) +
      (if ((b.set_piece r c v).board x.1 x.2).isSome then 1 else 0) := hkey
  rw [hxnew] at hkey2
  rw [hxold]
  unfold Board.totalPieces
  split_ifs at hkey2 ⊢ <;> omega

/-- A cell holding a piece forces a positive piece count. -/
theorem totalPieces_pos_of_get {b : Board} {r c : Int} {p : Piece}
    (h : b.get_piece r c = some (some p)) : 1 ≤ b.totalPieces := by
  have hv := validPos_of_get_piece h
  have hx : (b.board (posIdx r c hv).1 (posIdx r c hv).2).isSome = true := by
    rw [Board.get_piece_pos _ hv] at h
    rw [Option.some.inj h]
    rfl
  have : 0 < allPos.countP fun ij => (b.board ij.1 ij.2).isSome := by
    rw [List.countP_pos_iff]
    exact ⟨posIdx r c hv, mem_allPos _, hx⟩
  exact this

/-- The hypothetical board of a chain continuation (moving the capturing
piece from an occupied origin onto an empty landing and removing the
captured opposing piece) has exactly one piece fewer. -/
theorem totalPieces_temp (b : Board) (row col jr jc orr oc : Int) (p q : Piece)
    (hfrom : b.get_piece row col = some (some p))
    (hland : b.get_piece jr jc = some none)
    (hopp : b.get_piece orr oc = some (some q))
    (hqp : q.color ≠ p.color) :
    (((b.move_piece row col jr jc).2).remove_piece orr oc).totalPieces + 1 =
      b.totalPieces := by
  have hvf : validPos row col := validPos_of_get_piece hfrom
  have hvl : validPos jr jc := validPos_of_get_piece hland
  have hvo : validPos orr oc := validPos_of_get_piece hopp
  have hfl : (row, col) ≠ (jr, jc) := by
    rintro h
    rw [Prod.mk.injEq] at h
    rw [h.1, h.2, hland] at hfrom
    exact Option.noConfusion (Option.some.inj hfrom)
  have hol : (orr, oc) ≠ (jr, jc) := by
    rintro h
    rw [Prod.mk.injEq] at h
    rw [h.1, h.2, hland] at hopp
    exact Option.noConfusion (Option.some.inj hopp)
  have hof : (orr, oc) ≠ (row, col) := by
    rintro h
    rw [Prod.mk.injEq] at h
    rw [h.1, h.2, hfrom] at hopp
    have := Option.some.inj (Option.some.inj hopp)
    exact hqp (by rw [this])
  have hmv : b.move_piece row col jr jc =
      (true, ((b.set_piece jr jc (some p)).remove_piece row col)) := by
    rw [Board.move_piece, hfrom]
  rw [hmv]
  set b2 := b.set_piece jr jc (some p) with hb2
  have h2 : b2.totalPieces = b.totalPieces + 1 := by
    have hts := totalPieces_set b jr jc (some p) hvl
    rw [hland, cellWeight_empty, ← hb2] at hts
    simp only [Option.isSome_some, eq_self_iff_true, if_true] at hts
    omega
  have hget2 : b2.get_piece row col = some (some p) := by
    rw [hb2, Board.get_set]
    rw [if_neg, hfrom]
    rintro ⟨_, h1, h2⟩
    exact hfl (by rw [h1, h2])
  set b3 := b2.remove_piece row col with hb3
  have h3 : b3.totalPieces = b.totalPieces := by
    have hts := totalPieces_set b2 row col none hvf
    rw [hget2, cellWeight_piece] at hts
    simp only [Option.isSome_none, if_false, Bool.false_eq_true] at hts
    have hb3' : b3 = b2.set_piece row col none := hb3
    rw [← hb3'] at hts
    omega
  have hget3 : b3.get_piece orr oc = some (some q) := by
    rw [hb3, Board.remove_piece, Board.get_set, if_neg, hb2, Board.get_set, if_neg, hopp]
    · rintro ⟨_, h1, h2⟩
      exact hol (by rw [← h1, ← h2])
    · rintro ⟨_, h1, h2⟩
      exact hof (by rw [← h1, ← h2])
  have hts := totalPieces_set b3 orr oc none hvo
  rw [hget3, cellWeight_piece] at hts
  simp only [Option.isSome_none, if_false, Bool.false_eq_true] at hts
  rw [Board.remove_piece]
  show (b3.set_piece orr oc none).totalPieces + 1 = b.totalPieces
  omega

/-! ### Congruence of the capture search in its recursion budget -/

theorem foldl_congr_fun {α β : Type} (l : List α) (f g : β → α → β) (a : β)
    (h : ∀ b x, x ∈ l → f b x = g b x) : l.foldl f a = l.foldl g a := by
  induction l generalizing a with
  | nil => rfl
  | cons hd tl ih =>
    rw [List.foldl_cons, List.foldl_cons, h a hd (List.mem_cons_self _ _)]
    exact ih _ (fun b x hx => h b x (List.mem_cons_of_mem _ hx))

theorem pionCaptureDir_congr (F G : Board → Int → Int → CaptureMap) (b : Board)
    (row col : Int) (p : Piece) (d : Int × Int) (acc : CaptureMap)
    (hp : b.get_piece row col = some (some p))
    (hrec : ∀ b' r' c', b'.totalPieces + 1 = b.totalPieces → F b' r' c' = G b' r' c') :
    pionCaptureDir F b row col p d acc = pionCaptureDir G b row col p d acc := by
  rw [pionCaptureDir, pionCaptureDir]
  rcases hcell : b.get_piece (row + d.1) (col + d.2) with _ | (_ | q) <;>
    simp only [hcell]
  by_cases hq : q.color ≠ p.color
  · simp only [if_pos hq]
    by_cases hland : b.get_piece (row + d.1 + d.1) (col + d.2 + d.2) = some none
    · simp only [if_pos hland]
      rw [hrec _ _ _ (totalPieces_temp b row col _ _ _ _ p q hp hland hcell hq)]
    · simp only [if_neg hland]
  · simp only [if_neg hq]

theorem dameScan_spec (b : Board) (p : Piece) (d : Int × Int) :
    ∀ (n : Nat) (r0 c0 orr oc : Int), dameScan b p d n r0 c0 = some (orr, oc) →
      ∃ q, b.get_piece orr oc = some (some q) ∧ q.color ≠ p.color := by
  intro n
  induction n with
  | zero => intro r0 c0 orr oc h; exact Option.noConfusion h
  | succ n ih =>
    intro r0 c0 orr oc h
    rw [dameScan] at h
    rcases hcell : b.get_piece r0 c0 with _ | (_ | q) <;> simp only [hcell] at h
    · exact Option.noConfusion h
    · exact ih _ _ _ _ h
    · by_cases hcol : q.color = p.color
      · rw [if_pos hcol] at h
        exact Option.noConfusion h
      · rw [if_neg hcol] at h
        have heq := Option.some.inj h
        have h1 : r0 = orr := congrArg Prod.fst heq
        have h2 : c0 = oc := congrArg Prod.snd heq
        refine ⟨q, ?_, hcol⟩
        rw [← h1, ← h2]
        exact hcell

theorem dameLand_congr (F G : Board → Int → Int → CaptureMap) (b : Board)
    (row col : Int) (opp : Int × Int) (d : Int × Int) (p q : Piece)
    (hp : b.get_piece row col = some (some p))
    (hopp : b.get_piece opp.1 opp.2 = some (some q))
    (hq : q.color ≠ p.color)
    (hrec : ∀ b' r' c', b'.totalPieces + 1 = b.totalPieces → F b' r' c' = G b' r' c') :
    ∀ (n : Nat) (r c : Int) (acc : CaptureMap),
      dameLand F b row col opp d n r c acc = dameLand G b row col opp d n r c acc := by
  intro n
  induction n with
  | zero => intro r c acc; rfl
  | succ n ih =>
    intro r c acc
    rw [dameLand, dameLand]
    by_cases hland : b.get_piece r c = some none
    · simp only [if_pos hland]
      rw [hrec _ _ _ (totalPieces_temp b row col r c opp.1 opp.2 p q hp hland hopp hq)]
      exact ih _ _ _
    · simp only [if_neg hland]

theorem dameCaptureDir_congr (F G : Board → Int → Int → CaptureMap) (b : Board)
    (row col : Int) (p : Piece) (d : Int × Int) (acc : CaptureMap)
    (hp : b.get_piece row col = some (some p))
    (hrec : ∀ b' r' c', b'.totalPieces + 1 = b.totalPieces → F b' r' c' = G b' r' c') :
    dameCaptureDir F b row col p d acc = dameCaptureDir G b row col p d acc := by
  rw [dameCaptureDir, dameCaptureDir]
  rcases hscan : dameScan b p d BOARD_SIZE (row + d.1) (col + d.2) with _ | opp
  · rfl
  · obtain ⟨q, hoppq, hqcol⟩ := dameScan_spec b p d BOARD_SIZE _ _ opp.1 opp.2
      (by rw [hscan])
    exact dameLand_congr F G b row col opp d p q hp hoppq hqcol hrec BOARD_SIZE _ _ acc

/-- The capture search is unchanged once the budget reaches the number of
pieces on the board. -/
theorem getCapturesFuel_stable :
    ∀ (t : Nat) (b : Board) (row col : Int) (f g : Nat),
      b.totalPieces = t → t ≤ f → t ≤ g →
      getCapturesFuel f b row col = getCapturesFuel g b row col := by
  intro t
  induction t with
  | zero =>
    intro b row col f g ht hf hg
    rcases hcell : b.get_piece row col with _ | (_ | p)
    · cases f <;> cases g <;> simp [getCapturesFuel, hcell]
    · cases f <;> cases g <;> simp [getCapturesFuel, hcell]
    · have := totalPieces_pos_of_get hcell
      omega
  | succ t ih =>
    intro b row col f g ht hf hg
    rcases hcell : b.get_piece row col with _ | (_ | p)
    · cases f <;> cases g <;> simp [getCapturesFuel, hcell]
    · cases f <;> cases g <;> simp [getCapturesFuel, hcell]
    · have hpos := totalPieces_pos_of_get hcell
      cases f with
      | zero => omega
      | succ f' =>
        cases g with
        | zero => omega
        | succ g' =>
          have hrec : ∀ b' r' c', b'.totalPieces + 1 = b.totalPieces →
              getCapturesFuel f' b' r' c' = getCapturesFuel g' b' r' c' := by
            intro b' r' c' hb'
            exact ih b' r' c' f' g' (by omega) (by omega) (by omega)
          rw [getCapturesFuel, getCapturesFuel]
          simp only [hcell]
          by_cases hty : p.type = PieceType.pion
          · simp only [if_pos hty]
            exact foldl_congr_fun dirs4 _ _ []
              (fun acc dd _ => pionCaptureDir_congr _ _ b row col p dd acc hcell hrec)
          · simp only [if_neg hty]
            exact foldl_congr_fun dirs4 _ _ []
              (fun acc dd _ => dameCaptureDir_congr _ _ b row col p dd acc hcell hrec)

/-! ### C9: the capture search terminates within the piece count -/

/-- C9: the capture-chain search is stable in its recursion budget from the
number of pieces on the board onward: any budget of at least `totalPieces`
(in particular, any budget at least the piece count, the bound stated by
the spec) computes exactly `get_captures` — the recursion never needs more
steps than there are pieces, since each chain continuation removes one
opposing piece. -/
theorem c9_capture_search_terminates (b : Board) (row col : Int) (fuel : Nat)
    (h : b.totalPieces ≤ fuel) :
    getCapturesFuel fuel b row col = b.get_captures row col :=
  getCapturesFuel_stable b.totalPieces b row col fuel b.totalPieces rfl h le_rfl

/-- Witness for C9: on the three-piece board `b1c` any budget from 3 up
(here 7) computes the same capture map from (6,1). -/
theorem c9_witness : getCapturesFuel 7 b1c 6 1 = b1c.get_captures 6 1 :=
  c9_capture_search_terminates b1c 6 1 7 (by decide)

/-! ### Dictionary lemmas -/

theorem dictLookup_insert_self (m : CaptureMap) (k : Int × Int) (v : List (Int × Int)) :
    dictLookup (dictInsert m k v) k = some v := by
  rw [dictInsert]
  by_cases hany : m.any (fun e => decide (e.1 = k)) = true
  · rw [if_pos hany]
    induction m with
    | nil => simp at hany
    | cons e rest ih =>
      rw [List.map_cons]
      by_cases he : e.1 = k
      · rw [if_pos he]
        rw [dictLookup, if_pos rfl]
      · rw [if_neg he, dictLookup, if_neg he]
        apply ih
        rcases List.any_eq_true.mp hany with ⟨x, hx, hxk⟩
        rcases List.mem_cons.mp hx with rfl | hxr
        · exact absurd (of_decide_eq_true hxk) he
        · exact List.any_eq_true.mpr ⟨x, hxr, hxk⟩
  · rw [if_neg hany]
    induction m with
    | nil => rw [List.nil_append, dictLookup, if_pos rfl]
    | cons e rest ih =>
      have he : ¬ (e.1 = k) := by
        intro h
        exact hany (List.any_eq_true.mpr ⟨e, List.mem_cons_self _ _, decide_eq_true h⟩)
      rw [List.cons_append, dictLookup, if_neg he]
      apply ih
      intro h
      rcases List.any_eq_true.mp h with ⟨x, hx, hxk⟩
      exact hany (List.any_eq_true.mpr ⟨x, List.mem_cons_of_mem _ hx, hxk⟩)

theorem dictLookup_insert_other (m : CaptureMap) (k : Int × Int) (v : List (Int × Int))
    (k' : Int × Int) (hk : k' ≠ k) :
    dictLookup (dictInsert m k v) k' = dictLookup m k' := by
  rw [dictInsert]
  by_cases hany : m.any (fun e => decide (e.1 = k)) = true
  · rw [if_pos hany]
    clear hany
    induction m with
    | nil => rfl
    | cons e rest ih =>
      rw [List.map_cons, dictLookup]
      by_cases he : e.1 = k
      · rw [if_pos he]
        rw [dictLookup]
        rw [if_neg (fun h => hk h.symm), if_neg (by rw [he]; exact fun h => hk h.symm)]
        exact ih
      · rw [if_neg he, dictLookup]
        by_cases he' : e.1 = k'
        · rw [if_pos he', if_pos he']
        · rw [if_neg he', if_neg he']
          exact ih
  · rw [if_neg hany]
    clear hany
    induction m with
    | nil =>
      simp only [List.nil_append, dictLookup]
      rw [if_neg (fun h => hk h.symm)]
    | cons e rest ih =>
      rw [List.cons_append, dictLookup, dictLookup]
      by_cases he' : e.1 = k'
      · rw [if_pos he', if_pos he']
      · rw [if_neg he', if_neg he']
        exact ih

/-- A key bound to a non-empty chain. -/
def hasKeyNE (m : CaptureMap) (k : Int × Int) : Prop :=
  ∃ ch, dictLookup m k = some ch ∧ ch ≠ []

theorem hasKeyNE_insert (m : CaptureMap) (k : Int × Int) (v : List (Int × Int))
    (hv : v ≠ []) : hasKeyNE (dictInsert m k v) k :=
  ⟨v, dictLookup_insert_self m k v, hv⟩

theorem hasKeyNE_insert_preserve (m : CaptureMap) (k : Int × Int) (v : List (Int × Int))
    (k' : Int × Int) (hv : v ≠ []) (h : hasKeyNE m k') :
    hasKeyNE (dictInsert m k v) k' := by
  by_cases hk : k' = k
  · subst hk
    exact hasKeyNE_insert m k' v hv
  · obtain ⟨ch, hch, hne⟩ := h
    exact ⟨ch, by rw [dictLookup_insert_other m k v k' hk]; exact hch, hne⟩

theorem hasKeyNE_merge_preserve (l : CaptureMap) (opp : Int × Int) (acc : CaptureMap)
    (k : Int × Int) (h : hasKeyNE acc k) :
    hasKeyNE (l.foldl (fun a e => dictInsert a e.1 (opp :: e.2)) acc) k := by
  induction l generalizing acc with
  | nil => exact h
  | cons e rest ih =>
    rw [List.foldl_cons]
    exact ih _ (hasKeyNE_insert_preserve acc e.1 (opp :: e.2) k (by simp) h)

theorem hasKeyNE_dameLand_preserve (F : Board → Int → Int → CaptureMap) (b : Board)
    (row col : Int) (opp d : Int × Int) (k : Int × Int) :
    ∀ (fuel : Nat) (r c : Int) (acc : CaptureMap), hasKeyNE acc k →
      hasKeyNE (dameLand F b row col opp d fuel r c acc) k := by
  intro fuel
  induction fuel with
  | zero => intro r c acc h; exact h
  | succ n ih =>
    intro r c acc h
    rw [dameLand]
    by_cases hc : b.get_piece r c = some none
    · simp only [if_pos hc]
      apply ih
      apply hasKeyNE_merge_preserve
      exact hasKeyNE_insert_preserve acc (r, c) [opp] k (by simp) h
    · simp only [if_neg hc]
      exact h

theorem hasKeyNE_dameCaptureDir_preserve (F : Board → Int → Int → CaptureMap) (b : Board)
    (row col : Int) (p : Piece) (d : Int × Int) (acc : CaptureMap) (k : Int × Int)
    (h : hasKeyNE acc k) :
    hasKeyNE (dameCaptureDir F b row col p d acc) k := by
  rw [dameCaptureDir]
  rcases dameScan b p d BOARD_SIZE (row + d.1) (col + d.2) with _ | opp
  · exact h
  · exact hasKeyNE_dameLand_preserve F b row col opp d k BOARD_SIZE _ _ acc h

theorem hasKeyNE_pionCaptureDir_preserve (F : Board → Int → Int → CaptureMap) (b : Board)
    (row col : Int) (p : Piece) (d : Int × Int) (acc : CaptureMap) (k : Int × Int)
    (h : hasKeyNE acc k) :
    hasKeyNE (pionCaptureDir F b row col p d acc) k := by
  rw [pionCaptureDir]
  rcases b.get_piece (row + d.1) (col + d.2) with _ | (_ | q)
  · exact h
  · exact h
  · by_cases hq : q.color ≠ p.color
    · simp only [if_pos hq]
      by_cases hland : b.get_piece (row + d.1 + d.1) (col + d.2 + d.2) = some none
      · simp only [if_pos hland]
        apply hasKeyNE_merge_preserve
        exact hasKeyNE_insert_preserve acc _ _ k (by simp) h
      · simp only [if_neg hland]
        exact h
    · simp only [if_neg hq]
      exact h

theorem hasKeyNE_foldl_preserve {α : Type} (l : List α) (f : CaptureMap → α → CaptureMap)
    (acc : CaptureMap) (k : Int × Int)
    (hf : ∀ a m, hasKeyNE m k → hasKeyNE (f m a) k)
    (h : hasKeyNE acc k) : hasKeyNE (l.foldl f acc) k := by
  induction l generalizing acc with
  | nil => exact h
  | cons a rest ih =>
    rw [List.foldl_cons]
    exact ih _ (hf a acc h)

/-! ### Scan and landing-loop behaviour on a described ray -/

/-- The King scan stops at the first opposing piece of the ray. -/
theorem dameScan_reach (b : Board) (p q : Piece) (d : Int × Int) :
    ∀ (n : Nat) (fuel : Nat) (r0 c0 : Int),
      (∀ k : Nat, k < n → b.get_piece (r0 + k * d.1) (c0 + k * d.2) = some none) →
      b.get_piece (r0 + n * d.1) (c0 + n * d.2) = some (some q) →
      q.color ≠ p.color → n < fuel →
      dameScan b p d fuel r0 c0 = some (r0 + n * d.1, c0 + n * d.2) := by
  intro n
  induction n with
  | zero =>
    intro fuel r0 c0 _ hq hcol hfuel
    cases fuel with
    | zero => omega
    | succ f =>
      rw [dameScan]
      simp only [Nat.cast_zero, zero_mul, add_zero] at hq ⊢
      rw [hq]
      simp only [if_neg hcol]
  | succ n ih =>
    intro fuel r0 c0 hempty hq hcol hfuel
    cases fuel with
    | zero => omega
    | succ f =>
      rw [dameScan]
      have h0 : b.get_piece (r0 + (0 : Nat) * d.1) (c0 + (0 : Nat) * d.2) = some none :=
        hempty 0 (by omega)
      simp only [Nat.cast_zero, zero_mul, add_zero] at h0
      rw [h0]
      have e1 : ∀ k : Nat, r0 + d.1 + (k : Int) * d.1 = r0 + ((k + 1 : Nat) : Int) * d.1 := by
        intro k
        push_cast
        ring
      have e2 : ∀ k : Nat, c0 + d.2 + (k : Int) * d.2 = c0 + ((k + 1 : Nat) : Int) * d.2 := by
        intro k
        push_cast
        ring
      have := ih f (r0 + d.1) (c0 + d.2)
        (fun k hk => by rw [e1 k, e2 k]; exact hempty (k + 1) (by omega))
        (by rw [e1 n, e2 n]; exact hq) hcol (by omega)
      rw [this, ← e1 n, ← e2 n]

/-- The King scan dies on a ray whose first piece has the same color. -/
theorem dameScan_dead (b : Board) (p q : Piece) (d : Int × Int) :
    ∀ (n : Nat) (fuel : Nat) (r0 c0 : Int),
      (∀ k : Nat, k < n → b.get_piece (r0 + k * d.1) (c0 + k * d.2) = some none) →
      b.get_piece (r0 + n * d.1) (c0 + n * d.2) = some (some q) →
      q.color = p.color → n < fuel →
      dameScan b p d fuel r0 c0 = none := by
  intro n
  induction n with
  | zero =>
    intro fuel r0 c0 _ hq hcol hfuel
    cases fuel with
    | zero => omega
    | succ f =>
      rw [dameScan]
      simp only [Nat.cast_zero, zero_mul, add_zero] at hq ⊢
      rw [hq]
      simp only [if_pos hcol]
  | succ n ih =>
    intro fuel r0 c0 hempty hq hcol hfuel
    cases fuel with
    | zero => omega
    | succ f =>
      rw [dameScan]
      have h0 : b.get_piece (r0 + (0 : Nat) * d.1) (c0 + (0 : Nat) * d.2) = some none :=
        hempty 0 (by omega)
      simp only [Nat.cast_zero, zero_mul, add_zero] at h0
      rw [h0]
      have e1 : ∀ k : Nat, r0 + d.1 + (k : Int) * d.1 = r0 + ((k + 1 : Nat) : Int) * d.1 := by
        intro k
        push_cast
        ring
      have e2 : ∀ k : Nat, c0 + d.2 + (k : Int) * d.2 = c0 + ((k + 1 : Nat) : Int) * d.2 := by
        intro k
        push_cast
        ring
      exact ih f (r0 + d.1) (c0 + d.2)
        (fun k hk => by rw [e1 k, e2 k]; exact hempty (k + 1) (by omega))
        (by rw [e1 n, e2 n]; exact hq) hcol (by omega)

/-- The landing loop records every empty square it walks over. -/
theorem dameLand_hasKey (F : Board → Int → Int → CaptureMap) (b : Board)
    (row col : Int) (opp d : Int × Int) :
    ∀ (n : Nat) (fuel : Nat) (r0 c0 : Int) (acc : CaptureMap),
      (∀ k : Nat, k ≤ n → b.get_piece (r0 + k * d.1) (c0 + k * d.2) = some none) →
      n < fuel →
      hasKeyNE (dameLand F b row col opp d fuel r0 c0 acc)
        (r0 + n * d.1, c0 + n * d.2) := by
  intro n
  induction n with
  | zero =>
    intro fuel r0 c0 acc hempty hfuel
    cases fuel with
    | zero => omega
    | succ f =>
      rw [dameLand]
      have h0 : b.get_piece (r0 + (0 : Nat) * d.1) (c0 + (0 : Nat) * d.2) = some none :=
        hempty 0 (by omega)
      simp only [Nat.cast_zero, zero_mul, add_zero] at h0 ⊢
      simp only [if_pos h0]
      apply hasKeyNE_dameLand_preserve
      apply hasKeyNE_merge_preserve
      exact hasKeyNE_insert acc (r0, c0) [opp] (by simp)
  | succ n ih =>
    intro fuel r0 c0 acc hempty hfuel
    cases fuel with
    | zero => omega
    | succ f =>
      rw [dameLand]
      have h0 : b.get_piece (r0 + (0 : Nat) * d.1) (c0 + (0 : Nat) * d.2) = some none :=
        hempty 0 (by omega)
      simp only [Nat.cast_zero, zero_mul, add_zero] at h0
      simp only [if_pos h0]
      have e1 : ∀ k : Nat, r0 + d.1 + (k : Int) * d.1 = r0 + ((k + 1 : Nat) : Int) * d.1 := by
        intro k
        push_cast
        ring
      have e2 : ∀ k : Nat, c0 + d.2 + (k : Int) * d.2 = c0 + ((k + 1 : Nat) : Int) * d.2 := by
        intro k
        push_cast
        ring
      rw [← e1 n, ← e2 n]
      apply ih f (r0 + d.1) (c0 + d.2)
      · intro k hk
        rw [e1 k, e2 k]
        exact hempty (k + 1) (by omega)
      · omega

/-- The direction step of the King capture fold registers every landing of
a described ray: no empties-then-enemy-then-empties ray is missed,
whatever the accumulator and the recursion callback. -/
theorem dameCaptureDir_hasKey (F : Board → Int → Int → CaptureMap) (b : Board)
    (row col : Int) (p q : Piece) (d : Int × Int) (acc : CaptureMap)
    (i m : Nat)
    (hd1 : d.1 = 1 ∨ d.1 = -1) (_hd2 : d.2 = 1 ∨ d.2 = -1)
    (hv0 : validPos row col)
    (hi : 1 ≤ i)
    (hscan : ∀ k : Nat, 1 ≤ k → k < i →
      b.get_piece (row + k * d.1) (col + k * d.2) = some none)
    (hopp : b.get_piece (row + i * d.1) (col + i * d.2) = some (some q))
    (hq : q.color ≠ p.color)
    (hm : i < m)
    (hland : ∀ k : Nat, i < k → k ≤ m →
      b.get_piece (row + k * d.1) (col + k * d.2) = some none) :
    hasKeyNE (dameCaptureDir F b row col p d acc) (row + m * d.1, col + m * d.2) := by
  have hvo : validPos (row + i * d.1) (col + i * d.2) := validPos_of_get_piece hopp
  have hvm : validPos (row + m * d.1) (col + m * d.2) :=
    validPos_of_get_piece (hland m hm le_rfl)
  have hiB : i < BOARD_SIZE := by
    obtain ⟨a1, a2, a3, a4⟩ := hv0
    obtain ⟨b1, b2, b3, b4⟩ := hvo
    rcases hd1 with h | h <;> rw [h] at b1 b2 <;> omega
  have hmB : m - i - 1 < BOARD_SIZE := by
    obtain ⟨a1, a2, a3, a4⟩ := hv0
    obtain ⟨b1, b2, b3, b4⟩ := hvm
    rcases hd1 with h | h <;> rw [h] at b1 b2 <;> omega
  obtain ⟨n, rfl⟩ : ∃ n, i = n + 1 := ⟨i - 1, by omega⟩
  have e1 : ∀ k : Nat, row + d.1 + (k : Int) * d.1 = row + ((k + 1 : Nat) : Int) * d.1 := by
    intro k
    push_cast
    ring
  have e2 : ∀ k : Nat, col + d.2 + (k : Int) * d.2 = col + ((k + 1 : Nat) : Int) * d.2 := by
    intro k
    push_cast
    ring
  have hsr : dameScan b p d BOARD_SIZE (row + d.1) (col + d.2) =
      some (row + ((n + 1 : Nat) : Int) * d.1, col + ((n + 1 : Nat) : Int) * d.2) := by
    have := dameScan_reach b p q d n BOARD_SIZE (row + d.1) (col + d.2)
      (fun k hk => by rw [e1 k, e2 k]; exact hscan (k + 1) (by omega) (by omega))
      (by rw [e1 n, e2 n]; exact hopp) hq (by omega)
    rw [this, e1 n, e2 n]
  rw [dameCaptureDir, hsr]
  -- the landing loop starts one step past the opponent
  have e3 : ∀ k : Nat,
      row + ((n + 1 : Nat) : Int) * d.1 + d.1 + (k : Int) * d.1 =
        row + ((n + 1 + 1 + k : Nat) : Int) * d.1 := by
    intro k
    push_cast
    ring
  have e4 : ∀ k : Nat,
      col + ((n + 1 : Nat) : Int) * d.2 + d.2 + (k : Int) * d.2 =
        col + ((n + 1 + 1 + k : Nat) : Int) * d.2 := by
    intro k
    push_cast
    ring
  have hkey := dameLand_hasKey F b row col
    (row + ((n + 1 : Nat) : Int) * d.1, col + ((n + 1 : Nat) : Int) * d.2) d
    (m - (n + 1) - 1) BOARD_SIZE
    (row + ((n + 1 : Nat) : Int) * d.1 + d.1) (col + ((n + 1 : Nat) : Int) * d.2 + d.2) acc
    (fun k hk => by
      rw [e3 k, e4 k]
      exact hland (n + 1 + 1 + k) (by omega) (by omega))
    (by omega)
  rw [e3 (m - (n + 1) - 1), e4 (m - (n + 1) - 1)] at hkey
  have em : n + 1 + 1 + (m - (n + 1) - 1) = m := by omega
  rw [em] at hkey
  exact hkey

/-! ### C7: King capture landings -/

/-- C7 counterexample: on the board `bK` the ray of direction (-1,-1) from
the White King at (5,4) meets the opposing Black man at (4,3) immediately,
followed by the single empty landing (3,2) before the occupied (2,1); the
claim requires `(3,2) → [(4,3)]`, but the entry returned carries the chain
`[(4,5),(2,5),(2,3)]` of a continuation computed later on another ray,
which overwrote the one-element chain. -/
theorem c7_counterexample :
    bK.get_piece 5 4 = some (some ⟨Color.white, PieceType.dame⟩) ∧
    bK.get_piece 4 3 = some (some ⟨Color.black, PieceType.pion⟩) ∧
    bK.get_piece 3 2 = some none ∧
    bK.get_piece 2 1 = some (some ⟨Color.black, PieceType.pion⟩) ∧
    dictLookup (bK.get_captures 5 4) (3, 2) = some [(4, 5), (2, 5), (2, 3)] ∧
    dictLookup (bK.get_captures 5 4) (3, 2) ≠ some [(4, 3)] := by
  refine ⟨by decide, by decide, by decide, by decide, by decide, by decide⟩

/-- C7 amended: along a ray (direction `d`, multiples of `d` indexed from
the square of the King) made of empty squares up to the first opposing piece at
index `i` and empty squares from `i+1` to `m`, every landing index `m` past
the opponent appears as a key of `get_captures`, bound to a non-empty
chain (the chain is `[(opposing square)]` unless a later-computed
continuation chain ending on the same square overwrote it); and a ray
whose first piece has the color of the King itself contributes nothing: its
direction step returns the accumulator unchanged. -/
theorem c7_king_flying_landings (b : Board) (row col : Int) (p q : Piece)
    (d : Int × Int) (i m : Nat)
    (hp : b.get_piece row col = some (some p))
    (hty : p.type = PieceType.dame)
    (hd : d ∈ dirs4)
    (hi : 1 ≤ i)
    (hscan : ∀ k : Nat, 1 ≤ k → k < i →
      b.get_piece (row + k * d.1) (col + k * d.2) = some none)
    (hopp : b.get_piece (row + i * d.1) (col + i * d.2) = some (some q))
    (hq : q.color ≠ p.color)
    (hm : i < m)
    (hland : ∀ k : Nat, i < k → k ≤ m →
      b.get_piece (row + k * d.1) (col + k * d.2) = some none) :
    (∃ ch, dictLookup (b.get_captures row col) (row + m * d.1, col + m * d.2) = some ch ∧
      ch ≠ []) ∧
    (∀ (b' : Board) (row' col' : Int) (p' q' : Piece) (d' : Int × Int) (i' : Nat)
       (F : Board → Int → Int → CaptureMap) (acc : CaptureMap),
      b'.get_piece row' col' = some (some p') →
      d' ∈ dirs4 → 1 ≤ i' →
      (∀ k : Nat, 1 ≤ k → k < i' →
        b'.get_piece (row' + k * d'.1) (col' + k * d'.2) = some none) →
      b'.get_piece (row' + i' * d'.1) (col' + i' * d'.2) = some (some q') →
      q'.color = p'.color →
      dameCaptureDir F b' row' col' p' d' acc = acc) := by
  constructor
  · -- direction components are units
    have hd12 : (d.1 = 1 ∨ d.1 = -1) ∧ (d.2 = 1 ∨ d.2 = -1) := by
      simp only [dirs4, List.mem_cons, List.not_mem_nil, or_false] at hd
      rcases hd with rfl | rfl | rfl | rfl <;> exact ⟨by decide, by decide⟩
    have hv0 : validPos row col := validPos_of_get_piece hp
    have hT : 1 ≤ b.totalPieces := totalPieces_pos_of_get hp
    obtain ⟨T, hTe⟩ : ∃ T, b.totalPieces = T + 1 := ⟨b.totalPieces - 1, by omega⟩
    have hty' : ¬ (p.type = PieceType.pion) := by
      rw [hty]
      intro h
      exact PieceType.noConfusion h
    have hunfold : b.get_captures row col =
        dirs4.foldl
          (fun acc dd => dameCaptureDir (getCapturesFuel T) b row col p dd acc) [] := by
      rw [Board.get_captures, hTe, getCapturesFuel]
      simp only [hp]
      rw [if_neg hty']
    rw [hunfold]
    obtain ⟨l1, l2, hsplit⟩ := List.append_of_mem hd
    rw [hsplit, List.foldl_append, List.foldl_cons]
    have hstep : hasKeyNE
        (dameCaptureDir (getCapturesFuel T) b row col p d
          (l1.foldl (fun acc dd => dameCaptureDir (getCapturesFuel T) b row col p dd acc) []))
        (row + m * d.1, col + m * d.2) :=
      dameCaptureDir_hasKey (getCapturesFuel T) b row col p q d _ i m
        hd12.1 hd12.2 hv0 hi hscan hopp hq hm hland
    exact hasKeyNE_foldl_preserve l2 _ _ _
      (fun dd mm hmm => hasKeyNE_dameCaptureDir_preserve _ b row col p dd mm _ hmm) hstep
  · intro b' row' col' p' q' d' i' F acc hp' hd' hi' hscan' hopp' hq'
    have hd12' : (d'.1 = 1 ∨ d'.1 = -1) ∧ (d'.2 = 1 ∨ d'.2 = -1) := by
      simp only [dirs4, List.mem_cons, List.not_mem_nil, or_false] at hd'
      rcases hd' with rfl | rfl | rfl | rfl <;> exact ⟨by decide, by decide⟩
    have hv0' : validPos row' col' := validPos_of_get_piece hp'
    have hvo' : validPos (row' + i' * d'.1) (col' + i' * d'.2) :=
      validPos_of_get_piece hopp'
    have hiB' : i' < BOARD_SIZE := by
      obtain ⟨a1, a2, a3, a4⟩ := hv0'
      obtain ⟨b1, b2, b3, b4⟩ := hvo'
      rcases hd12'.1 with h | h <;> rw [h] at b1 b2 <;> omega
    obtain ⟨n, rfl⟩ : ∃ n, i' = n + 1 := ⟨i' - 1, by omega⟩
    have e1 : ∀ k : Nat,
        row' + d'.1 + (k : Int) * d'.1 = row' + ((k + 1 : Nat) : Int) * d'.1 := by
      intro k
      push_cast
      ring
    have e2 : ∀ k : Nat,
        col' + d'.2 + (k : Int) * d'.2 = col' + ((k + 1 : Nat) : Int) * d'.2 := by
      intro k
      push_cast
      ring
    have hdead : dameScan b' p' d' BOARD_SIZE (row' + d'.1) (col' + d'.2) = none :=
      dameScan_dead b' p' q' d' n BOARD_SIZE (row' + d'.1) (col' + d'.2)
        (fun k hk => by rw [e1 k, e2 k]; exact hscan' (k + 1) (by omega) (by omega))
        (by rw [e1 n, e2 n]; exact hopp') hq' (by omega)
    rw [dameCaptureDir, hdead]

/-- A White King at (5,4) with a single Black man at (3,2) on its
(-1,-1) ray. -/
def c7WB : Board := putP (putP emptyBoard 5 4 .white .dame) 3 2 .black .pion

/-- A White King at (5,4) with an own-color man at (6,5) killing the
(1,1) ray. -/
def c7WB2 : Board := putP (putP emptyBoard 5 4 .white .dame) 6 5 .white .pion

/-- Witness for C7 (amended): on `c7WB` the opposing piece sits at ray
index i = 2 and the landing of index m = 4 (square (1,0)) is a key of the
map with a non-empty chain; and on `c7WB2` the (1,1) ray meets an
own-color piece first and its direction step leaves any accumulator
unchanged. -/
theorem c7_witness :
    (∃ ch, dictLookup (c7WB.get_captures 5 4)
        (5 + ((4 : Nat) : Int) * (-1 : Int), 4 + ((4 : Nat) : Int) * (-1 : Int)) =
        some ch ∧ ch ≠ []) ∧
    (∀ (F : Board → Int → Int → CaptureMap) (acc : CaptureMap),
      dameCaptureDir F c7WB2 5 4 ⟨Color.white, PieceType.dame⟩ (1, 1) acc = acc) := by
  have h := c7_king_flying_landings c7WB 5 4
    ⟨Color.white, PieceType.dame⟩ ⟨Color.black, PieceType.pion⟩ (-1, -1) 2 4
    (by decide) rfl (by decide) (by decide)
    (by
      intro k h1 h2
      have hk : k = 1 := by omega
      subst hk
      decide)
    (by decide) (by decide) (by decide)
    (by
      intro k h1 h2
      interval_cases k <;> decide)
  refine ⟨h.1, ?_⟩
  intro F acc
  exact h.2 c7WB2 5 4 ⟨Color.white, PieceType.dame⟩ ⟨Color.white, PieceType.pion⟩ (1, 1) 1 F acc
    (by decide) (by decide) (by decide)
    (by
      intro k h1 h2
      omega)
    (by decide) (by decide)

end Checkers
